import Mathlib

/-!
Shallow embedding of the apricity rendering library (src/lib.rs, src/gui.rs).

Floating-point (`f64`/`f32`) arithmetic is modelled as exact rational
arithmetic over `ℚ` (the trigonometric distance code over `ℝ`).  Numeric
casts keep Rust's release-mode semantics: float-to-int casts truncate
toward zero and saturate at the target range, int-to-int casts wrap
modulo `2^32`, and `u32` arithmetic wraps modulo `2^32`.  A panicking
slice access is modelled by `Option.none`.
-/

namespace Apricity

/-- The `u32` modulus. -/
def U32 : ℕ := 2 ^ 32

/-- Truncation toward zero of a rational, as performed by Rust float-to-integer casts. -/
def truncQ (q : ℚ) : ℤ := if 0 ≤ q then ⌊q⌋ else ⌈q⌉

/-- Rust cast of a finite f64 value to i32: truncate toward zero, saturating at the i32 range. -/
def f64ToI32 (q : ℚ) : ℤ := min (max (truncQ q) (-(2 ^ 31))) (2 ^ 31 - 1)

/-- Rust cast of a finite f64 value to u32: truncate toward zero, saturating at the u32 range. -/
def f64ToU32 (q : ℚ) : ℕ := (min (max (truncQ q) 0) (2 ^ 32 - 1)).toNat

/-- Rust cast of a finite f32 value to u8: truncate toward zero, saturating at the u8 range. -/
def f32ToU8 (q : ℚ) : ℕ := (min (max (truncQ q) 0) 255).toNat

/-- Rust cast `x as u32` for `x : i32` (wrapping, two's complement). -/
def toU32 (x : ℤ) : ℕ := (x % (2 ^ 32)).toNat

/-- Rust cast to i32 of a `u32` value (wrapping, two's complement). -/
def i32OfU32 (n : ℕ) : ℤ := if n < 2 ^ 31 then (n : ℤ) else (n : ℤ) - 2 ^ 32

/-- lib.rs: `struct Point { x: f64, y: f64 }`. -/
@[ext]
structure Point where
  x : ℚ
  y : ℚ
deriving DecidableEq

/-- lib.rs: `struct Coordinate([f64; 2])`, the two components being longitude and latitude. -/
@[ext]
structure Coordinate where
  lon : ℚ
  lat : ℚ
deriving DecidableEq

/-- lib.rs: `Point::coordinate` (equirectangular projection to lon/lat). -/
def Point.coordinate (p : Point) (width height : ℚ) : Coordinate :=
  { lon := 180 * (2 * p.x / (width - 1) - 1)
    lat := 90 * (1 - 2 * p.y / (height - 1)) }

/-- lib.rs: `Coordinate::screen` (inverse of the equirectangular projection). -/
def Coordinate.screen (c : Coordinate) (width height : ℚ) : Point :=
  { x := (width - 1) * (c.lon / 180 + 1) / 2
    y := (height - 1) * (1 - c.lat / 90) / 2 }

/-- lib.rs: `MEAN_EARTH_RADIUS`. -/
noncomputable def MEAN_EARTH_RADIUS : ℝ := 6371008.8

/-- Geographic coordinate with real-valued components, for the trigonometric distance code. -/
structure RCoordinate where
  lon : ℝ
  lat : ℝ

/-- lib.rs: `Coordinate::great_circle_distance` (haversine formula), with f64 modelled by `ℝ`;
the local variables `theta1`, `theta2`, `delta_theta`, `delta_lambda`, `a`, `c` of the source
are inlined. -/
noncomputable def great_circle_distance (self rhs : RCoordinate) : ℝ :=
  MEAN_EARTH_RADIUS *
    (2 * Real.arcsin (Real.sqrt
      (Real.sin (Real.pi * (rhs.lat - self.lat) / 180 / 2) ^ 2 +
       Real.cos (Real.pi * self.lat / 180) * Real.cos (Real.pi * rhs.lat / 180) *
         Real.sin (Real.pi * (rhs.lon - self.lon) / 180 / 2) ^ 2)))

/-- gui.rs: `struct SimpleImage` — a byte vector plus `u32` width and height. -/
structure SimpleImage where
  data : List ℕ
  width : ℕ
  height : ℕ
deriving DecidableEq

/-- gui.rs: `SimpleImage::new` — a zero-filled buffer of `4*width*height` bytes. -/
def SimpleImage.new (width height : ℕ) : SimpleImage :=
  { data := List.replicate (4 * width * height) 0, width := width, height := height }

/-- Byte offset computed by the `Index`/`IndexMut` impls for a buffer of width `wdt`:
`4*y*width + 4*x` in wrapping `u32` arithmetic. -/
def indexIn (wdt x y : ℕ) : ℕ :=
  ((4 * y % U32) * wdt % U32 + 4 * x % U32) % U32

/-- Byte offset computed by the `Index`/`IndexMut` impls for `SimpleImage`. -/
def SimpleImage.index_of (img : SimpleImage) (x y : ℕ) : ℕ :=
  indexIn img.width x y

/-- Replace the four bytes at offset `idx` of a byte vector. -/
def writeBytes (d : List ℕ) (idx : ℕ) (c : List ℕ) : List ℕ :=
  d.take idx ++ (c ++ d.drop (idx + 4))

/-- Read the four bytes at offset `idx` of a byte vector. -/
def readBytes (d : List ℕ) (idx : ℕ) : List ℕ :=
  (d.drop idx).take 4

/-- gui.rs: `Index<(u32, u32)> for SimpleImage` — the slice `data[idx..idx+4]`;
a slice reaching past the end of the vector panics (`none`). -/
def SimpleImage.get (img : SimpleImage) (x y : ℕ) : Option (List ℕ) :=
  if img.index_of x y + 4 ≤ img.data.length then some (readBytes img.data (img.index_of x y))
  else none

/-- gui.rs: `IndexMut<(u32, u32)> for SimpleImage`, used as the store `self[(x, y)] = c`. -/
def SimpleImage.set (img : SimpleImage) (x y : ℕ) (c : List ℕ) : Option SimpleImage :=
  if img.index_of x y + 4 ≤ img.data.length then
    some { img with data := writeBytes img.data (img.index_of x y) c }
  else none

/-- A pending pixel store: target `(u32 x, u32 y)` and the four bytes stored. -/
abbrev PixelWrite := (ℕ × ℕ) × List ℕ

/-- Apply a sequence of pixel stores left to right, failing at the first panicking store. -/
def applyWrites : SimpleImage → List PixelWrite → Option SimpleImage
  | img, [] => some img
  | img, w :: ws =>
    match img.set w.1.1 w.1.2 w.2 with
    | none => none
    | some img2 => applyWrites img2 ws

/-- gui.rs, `draw_polygon`: the edge list — each point zipped with the cyclically next one. -/
def edges (polygon : List Point) : List (Point × Point) :=
  polygon.zip (polygon.rotate 1)

/-- f64::MAX as an exact rational, written as a numeral so that concrete polygon
evaluations reduce; `fMAX_eq` checks it against the closed form `2 ^ 1024 - 2 ^ 971`. -/
def fMAX : ℚ :=
  179769313486231570814527423731704356798070567525844996598917476803157260780028538760589558632766878171540458953514382464234321326889464182768467546703537516986049910576551282076245490090389328944075868508455133942304583236903222948165808559332123348274797826204144723168738177180919299881250404026184124858368

/-- gui.rs, `draw_polygon`: `top`, folded with `min` starting from `f64::MAX`. -/
def topOf (lines : List (Point × Point)) : ℚ :=
  lines.foldl (fun t l => min (min t l.1.y) l.2.y) fMAX

/-- gui.rs, `draw_polygon`: `bottom`, folded with `max` starting from `0.0`. -/
def bottomOf (lines : List (Point × Point)) : ℚ :=
  lines.foldl (fun b l => max (max b l.1.y) l.2.y) 0

/-- Number of iterations of the `while y < bottom` loop: `y` starts at `top` and steps by `0.5`,
so iteration `i` runs exactly when `i < (bottom - top) * 2`. -/
def scanCount (top bottom : ℚ) : ℕ := (⌈(bottom - top) * 2⌉).toNat

/-- gui.rs, `draw_polygon` scan loop body: the intersection contributed by one edge at scan
height `y`, if any — horizontal edges are skipped, the edge is normalized so `a.y ≤ b.y`,
heights outside `[a.y, b.y]` are skipped, vertical edges contribute `a.x`, others the
solution of `y = k*x + m`. -/
def edgeIntersection (y : ℚ) (l : Point × Point) : Option ℤ :=
  if l.1.y = l.2.y then none
  else
    let a := if l.1.y > l.2.y then l.2 else l.1
    let b := if l.1.y > l.2.y then l.1 else l.2
    if y < a.y ∨ y > b.y then none
    else if a.x = b.x then some (f64ToI32 a.x)
    else
      let k := (b.y - a.y) / (b.x - a.x)
      let m := a.y - k * a.x
      some (f64ToI32 ((y - m) / k))

/-- gui.rs, `draw_polygon`: all intersections at scan height `y`, sorted ascending. -/
def intersectionsAt (lines : List (Point × Point)) (y : ℚ) : List ℤ :=
  (lines.filterMap (edgeIntersection y)).insertionSort (· ≤ ·)

/-- gui.rs, `draw_polygon`: adjacent intersections zipped and the even-indexed pairs kept
(the even-odd rule). -/
def spanPairs (xs : List ℤ) : List (ℤ × ℤ) :=
  ((xs.zip (xs.drop 1)).enum).filterMap (fun il => if il.1 % 2 = 0 then some il.2 else none)

/-- The inclusive integer range `x0..=x1` (empty when `x1 < x0`). -/
def rangeClosed (x0 x1 : ℤ) : List ℤ :=
  (List.range (x1 + 1 - x0).toNat).map (fun i => x0 + i)

/-- Scan heights visited by the fill loop: `top + 0.5*i` for each iteration `i`. -/
def scanYs (lines : List (Point × Point)) : List ℚ :=
  (List.range (scanCount (topOf lines) (bottomOf lines))).map
    (fun i => topOf lines + i / 2)

/-- gui.rs, `draw_polygon` fill pass: every store it performs, in order — for each scan line,
each even-odd span, each `x` in the span, store `color` at `(x as u32, y as u32)`. -/
def fillWrites (lines : List (Point × Point)) (color : List ℕ) : List PixelWrite :=
  (scanYs lines).flatMap (fun y =>
    (spanPairs (intersectionsAt lines y)).flatMap (fun p =>
      (rangeClosed p.1 p.2).map (fun x => ((toU32 x, f64ToU32 y), color))))

/-- Modelled from the spec: one run of Bresenham's integer line algorithm (the `line_drawing`
crate used by gui.rs is an external dependency, not part of this repository).  Classic
all-octant form: `dx = |x1-x0|`, `dy = -|y1-y0|`, doubled-error comparison; the fuel is an
upper bound on the number of emitted pixels. -/
def bresenhamAux (x1 y1 dx dy sx sy : ℤ) : ℕ → ℤ → ℤ → ℤ → List (ℤ × ℤ)
  | 0, _, _, _ => []
  | fuel + 1, x, y, err =>
    (x, y) ::
      (if x = x1 ∧ y = y1 then []
       else
         let e2 := 2 * err
         let x2 := if dy ≤ e2 then x + sx else x
         let err2 := if dy ≤ e2 then err + dy else err
         let y2 := if e2 ≤ dx then y + sy else y
         let err3 := if e2 ≤ dx then err2 + dx else err2
         bresenhamAux x1 y1 dx dy sx sy fuel x2 y2 err3)

/-- Modelled from the spec: Bresenham's integer line algorithm from `start` to `stop`, both
endpoints included. -/
def bresenham (start stop : ℤ × ℤ) : List (ℤ × ℤ) :=
  let dx : ℕ := (stop.1 - start.1).natAbs
  let dy : ℕ := (stop.2 - start.2).natAbs
  let sx : ℤ := if start.1 < stop.1 then 1 else -1
  let sy : ℤ := if start.2 < stop.2 then 1 else -1
  bresenhamAux stop.1 stop.2 (dx : ℤ) (-(dy : ℤ)) sx sy (dx + dy + 1) start.1 start.2
    ((dx : ℤ) + (-(dy : ℤ)))

/-- gui.rs, `draw_polygon` outline pass: for every edge, store opaque black `[0,0,0,0xFF]`
along the Bresenham line between the truncated (`as i32`) endpoints. -/
def strokeWrites (lines : List (Point × Point)) : List PixelWrite :=
  lines.flatMap (fun l =>
    (bresenham (f64ToI32 l.1.x, f64ToI32 l.1.y) (f64ToI32 l.2.x, f64ToI32 l.2.y)).map
      (fun q => ((toU32 q.1, toU32 q.2), [0, 0, 0, 255])))

/-- gui.rs: `SimpleImage::draw_polygon` — the fill pass followed by the outline pass; a
panicking store yields `none`.  The store positions and colors are computed from the polygon
alone, so the interleaved source loops are embedded as their ordered store sequences. -/
def draw_polygon (img : SimpleImage) (polygon : List Point) (color : List ℕ) :
    Option SimpleImage :=
  match applyWrites img (fillWrites (edges polygon) color) with
  | none => none
  | some img2 => applyWrites img2 (strokeWrites (edges polygon))

/-- rusttype pixel bounding box: i32 min/max corners. -/
structure Bbox where
  minX : ℤ
  minY : ℤ
  maxX : ℤ
  maxY : ℤ
deriving DecidableEq

/-- Modelled from the spec: one laid-out glyph as produced by the external font-shaping
collaborator (rusttype `Font::layout`): an optional pixel bounding box plus the coverage
callback's sequence of `(x, y, coverage)` reports, `x` and `y` being `u32` box-local offsets. -/
structure Glyph where
  bbox : Option Bbox
  coverage : List (ℕ × ℕ × ℚ)

/-- gui.rs, `create_text_image`: the `(y_min, y_max, width)` fold over the glyphs that have a
bounding box, starting from `(0, 0, 0)`. -/
def textBounds (glyphs : List Glyph) : ℤ × ℤ × ℤ :=
  (glyphs.filterMap Glyph.bbox).foldl
    (fun acc b => (min acc.1 b.minY, max acc.2.1 b.maxY, max acc.2.2 b.maxX))
    (0, 0, 0)

/-- gui.rs, `create_text_image`: the stores performed for one glyph — none without a bounding
box; otherwise the color bytes swapped to BGRA order with alpha `(255.0*w) as u8`, at the
offset `(x + bbox.min.x, y + bbox.min.y - y_min)` cast to `u32`. -/
def glyphTarget (bbox : Bbox) (y_min : ℤ) (e : ℕ × ℕ × ℚ) : ℤ × ℤ :=
  (i32OfU32 e.1 + bbox.minX, i32OfU32 e.2.1 + bbox.minY - y_min)

/-- gui.rs, `create_text_image`: the stores performed for one glyph, continued. -/
def glyphWrites (y_min : ℤ) (color : ℕ × ℕ × ℕ) (g : Glyph) : List PixelWrite :=
  match g.bbox with
  | none => []
  | some bbox =>
    g.coverage.map (fun e =>
      ((toU32 (glyphTarget bbox y_min e).1, toU32 (glyphTarget bbox y_min e).2),
       [color.2.2, color.2.1, color.1, f32ToU8 (255 * e.2.2)]))

/-- gui.rs: `SimpleImage::create_text_image`, taking the font collaborator's layout output
(the glyph list) as input; `none` models a panicking store, `some` the `Ok` result. -/
def create_text_image (glyphs : List Glyph) (color : ℕ × ℕ × ℕ) : Option SimpleImage :=
  applyWrites
    (SimpleImage.new (toU32 (textBounds glyphs).2.2)
      (toU32 ((textBounds glyphs).2.1 - (textBounds glyphs).1)))
    (glyphs.flatMap (glyphWrites (textBounds glyphs).1 color))

/-- The two endpoint y-coordinates of every edge, flattened in edge order. -/
def edgeYs (lines : List (Point × Point)) : List ℚ :=
  lines.flatMap (fun l => [l.1.y, l.2.y])

section FoldMinMax

variable {α : Type*} [LinearOrder α]

theorem foldl_min_shift (t : List α) (a b : α) :
    t.foldl min (min a b) = min a (t.foldl min b) := by
  induction t generalizing b with
  | nil => rfl
  | cons c t ih =>
    simp only [List.foldl_cons]
    rw [min_assoc, ih]

theorem foldl_max_shift (t : List α) (a b : α) :
    t.foldl max (max a b) = max a (t.foldl max b) := by
  induction t generalizing b with
  | nil => rfl
  | cons c t ih =>
    simp only [List.foldl_cons]
    rw [max_assoc, ih]

theorem cons_minimum_foldl (a : α) (l : List α) :
    (a :: l).minimum = some (l.foldl min a) := by
  induction l generalizing a with
  | nil => exact List.minimum_singleton a
  | cons b t ih =>
    rw [List.minimum_cons, ih b, List.foldl_cons]
    rw [show ((some (t.foldl min b)) : WithTop α) = ((t.foldl min b : α) : WithTop α) from rfl,
      ← WithTop.coe_min, foldl_min_shift]
    rfl

theorem cons_maximum_foldl (a : α) (l : List α) :
    (a :: l).maximum = some (l.foldl max a) := by
  induction l generalizing a with
  | nil => exact List.maximum_singleton a
  | cons b t ih =>
    rw [List.maximum_cons, ih b, List.foldl_cons]
    rw [show ((some (t.foldl max b)) : WithBot α) = ((t.foldl max b : α) : WithBot α) from rfl,
      ← WithBot.coe_max, foldl_max_shift]
    rfl

theorem foldl_min_of_minimum (l : List α) (a m : α) (h : l.minimum = some m) :
    l.foldl min a = min a m := by
  have h2 := cons_minimum_foldl a l
  rw [List.minimum_cons, h] at h2
  rw [show ((min (a : WithTop α) (some m)) : WithTop α) = ((min a m : α) : WithTop α) from
    (WithTop.coe_min a m).symm] at h2
  exact (WithTop.coe_inj.mp h2).symm

theorem foldl_max_of_maximum (l : List α) (a m : α) (h : l.maximum = some m) :
    l.foldl max a = max a m := by
  have h2 := cons_maximum_foldl a l
  rw [List.maximum_cons, h] at h2
  rw [show ((max (a : WithBot α) (some m)) : WithBot α) = ((max a m : α) : WithBot α) from
    (WithBot.coe_max a m).symm] at h2
  exact (WithBot.coe_inj.mp h2).symm

end FoldMinMax

theorem fMAX_eq : fMAX = 2 ^ 1024 - 2 ^ 971 := by
  norm_num [fMAX]

theorem topOf_eq_foldl (lines : List (Point × Point)) :
    topOf lines = (edgeYs lines).foldl min fMAX := by
  show lines.foldl (fun t l => min (min t l.1.y) l.2.y) fMAX = _
  generalize fMAX = a
  induction lines generalizing a with
  | nil => rfl
  | cons l ls ih => simp [edgeYs, List.foldl_cons, ih]

theorem bottomOf_eq_foldl (lines : List (Point × Point)) :
    bottomOf lines = (edgeYs lines).foldl max 0 := by
  show lines.foldl (fun b l => max (max b l.1.y) l.2.y) 0 = _
  generalize (0 : ℚ) = a
  induction lines generalizing a with
  | nil => rfl
  | cons l ls ih => simp [edgeYs, List.foldl_cons, ih]

theorem edgeYs_zip_perm (l1 l2 : List Point) (h : l1.length = l2.length) :
    (edgeYs (l1.zip l2)).Perm (l1.map Point.y ++ l2.map Point.y) := by
  induction l1 generalizing l2 with
  | nil =>
    cases l2 with
    | nil => rfl
    | cons b t => simp at h
  | cons a t1 ih =>
    cases l2 with
    | nil => simp at h
    | cons b t2 =>
      simp only [List.length_cons, Nat.add_right_cancel_iff] at h
      simp only [List.zip_cons_cons, edgeYs, List.flatMap_cons, List.map_cons, List.cons_append]
      refine List.Perm.cons a.y ?_
      have step := (ih t2 h).cons b.y
      refine step.trans ?_
      exact (List.perm_middle).symm

theorem edgeYs_edges_perm (poly : List Point) :
    (edgeYs (edges poly)).Perm (poly.map Point.y ++ poly.map Point.y) := by
  have hlen : poly.length = (poly.rotate 1).length := (List.length_rotate poly 1).symm
  refine (edgeYs_zip_perm poly (poly.rotate 1) hlen).trans ?_
  exact List.Perm.append_left _ (((poly.rotate_perm 1)).map Point.y)

/-- C3 counterexample: for a polygon whose endpoints all have negative y, the computed
`bottom` is `0` (the fold starts from `0.0`), not the true maximum endpoint y, which is `-1`
here. -/
theorem C3_counterexample :
    bottomOf (edges [Point.mk 0 (-3), Point.mk 1 (-2), Point.mk 2 (-1)]) = 0 ∧
    (([Point.mk 0 (-3), Point.mk 1 (-2), Point.mk 2 (-1)].map Point.y).maximum = some (-1)) ∧
    (0 : ℚ) ≠ (-1 : ℚ) := by
  refine ⟨by decide, by decide, by decide⟩

/-- C3 (amended): the scan-fill pass of `draw_polygon` computes `top` as the true minimum
endpoint y-coordinate (for a nonempty polygon of f64 values, i.e. values at most f64::MAX),
but computes `bottom` as `max 0 M` where `M` is the true maximum endpoint y-coordinate — so
`bottom` is clamped below by `0` and does not equal the true maximum when every endpoint has
negative y. -/
theorem C3_extent (poly : List Point) (m M : ℚ)
    (hm : (poly.map Point.y).minimum = some m)
    (hM : (poly.map Point.y).maximum = some M)
    (hmf : m ≤ fMAX) :
    topOf (edges poly) = m ∧ bottomOf (edges poly) = max 0 M := by
  have hperm := edgeYs_edges_perm poly
  constructor
  · rw [topOf_eq_foldl, hperm.foldl_eq, List.foldl_append,
      foldl_min_of_minimum _ _ _ hm, foldl_min_of_minimum _ _ _ hm,
      min_assoc, min_self, min_eq_right hmf]
  · rw [bottomOf_eq_foldl, hperm.foldl_eq, List.foldl_append,
      foldl_max_of_maximum _ _ _ hM, foldl_max_of_maximum _ _ _ hM,
      max_assoc, max_self]

/-- Witness for C3 at a concrete polygon. -/
theorem C3_extent_witness :
    topOf (edges [Point.mk 0 5, Point.mk 1 2, Point.mk 2 9]) = 2 ∧
    bottomOf (edges [Point.mk 0 5, Point.mk 1 2, Point.mk 2 9]) = max 0 9 :=
  C3_extent [Point.mk 0 5, Point.mk 1 2, Point.mk 2 9] 2 9 (by decide) (by decide)
    (by norm_num [fMAX])

theorem textBounds_foldl (bs : List Bbox) (a b c : ℤ) :
    bs.foldl (fun acc x => (min acc.1 x.minY, max acc.2.1 x.maxY, max acc.2.2 x.maxX))
        (a, b, c) =
      ((bs.map Bbox.minY).foldl min a, (bs.map Bbox.maxY).foldl max b,
        (bs.map Bbox.maxX).foldl max c) := by
  induction bs generalizing a b c with
  | nil => rfl
  | cons x t ih => simp [List.foldl_cons, ih]

/-- C4 counterexample: a single glyph whose bounding box lies strictly below y = 0
(`min.y = 5`): the fold starts from `(0, 0, 0)`, so the computed `y_min` is `0`, not the
glyphs-only minimum `5`. -/
theorem C4_counterexample :
    textBounds [⟨some ⟨1, 5, 7, 10⟩, []⟩] = (0, 10, 7) ∧
    (([⟨some ⟨1, 5, 7, 10⟩, []⟩] : List Glyph).filterMap Glyph.bbox).map Bbox.minY = [5] ∧
    ([(5 : ℤ)]).minimum = some 5 ∧ (0 : ℤ) ≠ 5 := by
  refine ⟨by decide, by decide, by decide, by decide⟩

/-- C4 (amended): in `create_text_image`, the computed `y_min` is the minimum of `0` and
the `min.y` values of the glyphs that have a bounding box, `y_max` the maximum of `0` and
their `max.y` values, and `width` the maximum of `0` and their `max.x` values — the fold
starts from `(0, 0, 0)`, so `0` always participates in the bounds; glyphs without a bounding
box do not affect them. -/
theorem C4_bounds (gs : List Glyph) :
    (((0 : ℤ) :: (gs.filterMap Glyph.bbox).map Bbox.minY).minimum =
      some (textBounds gs).1) ∧
    (((0 : ℤ) :: (gs.filterMap Glyph.bbox).map Bbox.maxY).maximum =
      some (textBounds gs).2.1) ∧
    (((0 : ℤ) :: (gs.filterMap Glyph.bbox).map Bbox.maxX).maximum =
      some (textBounds gs).2.2) := by
  have h : textBounds gs =
      (((gs.filterMap Glyph.bbox).map Bbox.minY).foldl min 0,
        ((gs.filterMap Glyph.bbox).map Bbox.maxY).foldl max 0,
        ((gs.filterMap Glyph.bbox).map Bbox.maxX).foldl max 0) :=
    textBounds_foldl (gs.filterMap Glyph.bbox) 0 0 0
  rw [h]
  exact ⟨cons_minimum_foldl _ _, cons_maximum_foldl _ _, cons_maximum_foldl _ _⟩

/-- C2: for every Point within `[0, width-1] × [0, height-1]` with `width, height > 1`, the
composition `p.coordinate(width, height).screen(width, height)` reproduces `p` exactly (the
floating-point computation is modelled by exact rational arithmetic, so reproduction within
floating tolerance is confirmed in the form of exact algebraic reproduction). -/
theorem C2_roundtrip (p : Point) (width height : ℚ)
    (hw : 1 < width) (hh : 1 < height)
    (hx0 : 0 ≤ p.x) (hx1 : p.x ≤ width - 1)
    (hy0 : 0 ≤ p.y) (hy1 : p.y ≤ height - 1) :
    (p.coordinate width height).screen width height = p := by
  have hw1 : width - 1 ≠ 0 := sub_ne_zero.mpr (ne_of_gt hw)
  have hh1 : height - 1 ≠ 0 := sub_ne_zero.mpr (ne_of_gt hh)
  cases p with
  | mk px py =>
    simp only [Point.coordinate, Coordinate.screen, Point.mk.injEq]
    constructor
    · field_simp
      ring
    · field_simp
      ring

/-- Witness for C2 at a concrete point and projection size. -/
theorem C2_roundtrip_witness :
    ((Point.mk 3 4).coordinate 11 21).screen 11 21 = Point.mk 3 4 :=
  C2_roundtrip (Point.mk 3 4) 11 21 (by norm_num) (by norm_num) (by norm_num)
    (by norm_num) (by norm_num) (by norm_num)

/-- C6: `great_circle_distance` is symmetric in its two arguments and is zero on two
identical coordinates. -/
theorem C6_great_circle_symm_and_zero :
    (∀ a b : RCoordinate, great_circle_distance a b = great_circle_distance b a) ∧
    (∀ c : RCoordinate, great_circle_distance c c = 0) := by
  constructor
  · intro a b
    unfold great_circle_distance
    rw [show Real.pi * (a.lat - b.lat) / 180 / 2
          = -(Real.pi * (b.lat - a.lat) / 180 / 2) by ring,
        show Real.pi * (a.lon - b.lon) / 180 / 2
          = -(Real.pi * (b.lon - a.lon) / 180 / 2) by ring,
        Real.sin_neg, Real.sin_neg, neg_sq, neg_sq,
        mul_comm (Real.cos (Real.pi * b.lat / 180)) (Real.cos (Real.pi * a.lat / 180))]
  · intro c
    unfold great_circle_distance
    simp [sub_self]

theorem writeBytes_length (d c : List ℕ) (idx : ℕ) (hc : c.length = 4)
    (h : idx + 4 ≤ d.length) : (writeBytes d idx c).length = d.length := by
  simp [writeBytes, hc]
  omega

theorem getElem?_writeBytes (d v : List ℕ) (idx i : ℕ) (hc : v.length = 4)
    (h : idx + 4 ≤ d.length) :
    (writeBytes d idx v)[i]? = if idx ≤ i ∧ i < idx + 4 then v[i - idx]? else d[i]? := by
  have hlt : (d.take idx).length = idx := by
    rw [List.length_take]
    omega
  unfold writeBytes
  by_cases h1 : i < idx
  · rw [List.getElem?_append_left (by rw [hlt]; exact h1), List.getElem?_take_of_lt h1,
      if_neg (by omega)]
  · rw [List.getElem?_append_right (by omega), hlt]
    by_cases h2 : i < idx + 4
    · rw [List.getElem?_append_left (by rw [hc]; omega), if_pos (by omega)]
    · rw [List.getElem?_append_right (by rw [hc]; omega), hc, List.getElem?_drop,
        if_neg (by omega)]
      congr 1
      omega

theorem getElem?_readBytes (d : List ℕ) (j t : ℕ) :
    (readBytes d j)[t]? = if t < 4 then d[j + t]? else none := by
  unfold readBytes
  by_cases ht : t < 4
  · rw [if_pos ht, List.getElem?_take_of_lt ht, List.getElem?_drop]
  · rw [if_neg ht]
    apply List.getElem?_eq_none
    have : ((d.drop j).take 4).length ≤ 4 := by
      rw [List.length_take]
      omega
    omega

theorem readBytes_congr (d d2 : List ℕ) (j : ℕ)
    (h : ∀ k, k < 4 → d2[j + k]? = d[j + k]?) : readBytes d2 j = readBytes d j := by
  apply List.ext_getElem?
  intro t
  rw [getElem?_readBytes, getElem?_readBytes]
  by_cases ht : t < 4
  · rw [if_pos ht, if_pos ht, h t ht]
  · rw [if_neg ht, if_neg ht]

theorem readBytes_writeBytes_self (d c : List ℕ) (idx : ℕ) (hc : c.length = 4)
    (h : idx + 4 ≤ d.length) : readBytes (writeBytes d idx c) idx = c := by
  apply List.ext_getElem?
  intro t
  rw [getElem?_readBytes]
  by_cases ht : t < 4
  · rw [if_pos ht, getElem?_writeBytes d c idx (idx + t) hc h, if_pos (by omega)]
    congr 1
    omega
  · rw [if_neg ht, eq_comm]
    apply List.getElem?_eq_none
    omega

theorem readBytes_writeBytes_disjoint (d c : List ℕ) (idx j : ℕ) (hc : c.length = 4)
    (h : idx + 4 ≤ d.length) (hdis : j + 4 ≤ idx ∨ idx + 4 ≤ j) :
    readBytes (writeBytes d idx c) j = readBytes d j := by
  apply readBytes_congr
  intro k hk
  rw [getElem?_writeBytes d c idx (j + k) hc h, if_neg (by omega)]

theorem indexIn_dvd (wdt x y : ℕ) : 4 ∣ indexIn wdt x y := by
  unfold indexIn U32
  have h1 : (4 : ℕ) ∣ 2 ^ 32 := by norm_num
  have d1 : 4 ∣ 4 * y % 2 ^ 32 := (Nat.dvd_mod_iff h1).mpr ⟨y, rfl⟩
  have d2 : 4 ∣ (4 * y % 2 ^ 32) * wdt % 2 ^ 32 :=
    (Nat.dvd_mod_iff h1).mpr (d1.mul_right wdt)
  have d3 : 4 ∣ 4 * x % 2 ^ 32 := (Nat.dvd_mod_iff h1).mpr ⟨x, rfl⟩
  exact (Nat.dvd_mod_iff h1).mpr (Nat.dvd_add d2 d3)

theorem indexIn_of_lt (wdt hgt x y : ℕ) (hx : x < wdt) (hy : y < hgt)
    (hsz : 4 * wdt * hgt ≤ U32) :
    indexIn wdt x y = 4 * (y * wdt + x) ∧ 4 * (y * wdt + x) + 4 ≤ 4 * wdt * hgt := by
  have hw1 : 1 ≤ wdt := by omega
  have key : 4 * y * wdt + 4 * x + 4 ≤ 4 * wdt * hgt := by
    have h0 : (4 * y + 4) ≤ 4 * hgt := by omega
    have h1 : (4 * y + 4) * wdt ≤ 4 * hgt * wdt := Nat.mul_le_mul_right wdt h0
    have h2 : 4 * y * wdt + 4 * wdt = (4 * y + 4) * wdt := by ring
    have h3 : 4 * hgt * wdt = 4 * wdt * hgt := by ring
    have h4 : 4 * x + 4 ≤ 4 * wdt := by omega
    have h5 : 4 * y * wdt + 4 * wdt ≤ 4 * wdt * hgt := by omega
    omega
  have hyw : 4 * y ≤ 4 * y * wdt := Nat.le_mul_of_pos_right (4 * y) (by omega)
  have m1 : 4 * y % U32 = 4 * y := Nat.mod_eq_of_lt (by omega)
  have m2 : 4 * y * wdt % U32 = 4 * y * wdt := Nat.mod_eq_of_lt (by omega)
  have m3 : 4 * x % U32 = 4 * x := Nat.mod_eq_of_lt (by omega)
  have m4 : (4 * y * wdt + 4 * x) % U32 = 4 * y * wdt + 4 * x :=
    Nat.mod_eq_of_lt (by omega)
  have e1 : 4 * y * wdt = 4 * (y * wdt) := by ring
  unfold indexIn
  rw [m1, m2, m3, m4]
  constructor
  · omega
  · omega

theorem set_some_elim {img img2 : SimpleImage} {x y : ℕ} {c : List ℕ}
    (h : img.set x y c = some img2) :
    indexIn img.width x y + 4 ≤ img.data.length ∧
      img2 = { img with data := writeBytes img.data (indexIn img.width x y) c } := by
  unfold SimpleImage.set SimpleImage.index_of at h
  by_cases hcond : indexIn img.width x y + 4 ≤ img.data.length
  · rw [if_pos hcond] at h
    exact ⟨hcond, (Option.some.inj h).symm⟩
  · rw [if_neg hcond] at h
    cases h

theorem applyWrites_some_dims : ∀ (ws : List PixelWrite) (img img2 : SimpleImage),
    applyWrites img ws = some img2 → (∀ w ∈ ws, w.2.length = 4) →
    img2.width = img.width ∧ img2.height = img.height ∧
      img2.data.length = img.data.length := by
  intro ws
  induction ws with
  | nil =>
    intro img img2 h _
    cases h
    exact ⟨rfl, rfl, rfl⟩
  | cons w ws ih =>
    intro img img2 h hlen
    unfold applyWrites at h
    cases hset : img.set w.1.1 w.1.2 w.2 with
    | none => rw [hset] at h; cases h
    | some img1 =>
      rw [hset] at h
      obtain ⟨hc, him⟩ := set_some_elim hset
      have h4 : w.2.length = 4 := hlen w (List.mem_cons_self _ _)
      have hrest := ih img1 img2 h (fun v hv => hlen v (List.mem_cons_of_mem _ hv))
      subst him
      refine ⟨hrest.1, hrest.2.1, ?_⟩
      rw [hrest.2.2]
      exact writeBytes_length _ _ _ h4 hc

theorem applyWrites_frame : ∀ (ws : List PixelWrite) (img img2 : SimpleImage),
    applyWrites img ws = some img2 → (∀ w ∈ ws, w.2.length = 4) →
    ∀ i : ℕ,
      (∀ w ∈ ws, ¬ (indexIn img.width w.1.1 w.1.2 ≤ i ∧
        i < indexIn img.width w.1.1 w.1.2 + 4)) →
      img2.data[i]? = img.data[i]? := by
  intro ws
  induction ws with
  | nil =>
    intro img img2 h _ i _
    cases h
    rfl
  | cons w ws ih =>
    intro img img2 h hlen i hout
    unfold applyWrites at h
    cases hset : img.set w.1.1 w.1.2 w.2 with
    | none => rw [hset] at h; cases h
    | some img1 =>
      rw [hset] at h
      obtain ⟨hc, him⟩ := set_some_elim hset
      have h4 : w.2.length = 4 := hlen w (List.mem_cons_self _ _)
      have hw1 : img1.width = img.width := by rw [him]
      have step : img1.data[i]? = img.data[i]? := by
        rw [him]
        exact (getElem?_writeBytes _ _ _ i h4 hc).trans
          (if_neg (hout w (List.mem_cons_self _ _)))
      rw [← step]
      refine ih img1 img2 h (fun v hv => hlen v (List.mem_cons_of_mem _ hv)) i ?_
      rw [hw1]
      exact fun v hv => hout v (List.mem_cons_of_mem _ hv)

theorem black_persist : ∀ (ws : List PixelWrite) (img img2 : SimpleImage) (j : ℕ),
    applyWrites img ws = some img2 →
    (∀ w ∈ ws, w.2 = [0, 0, 0, 255]) →
    4 ∣ j → j + 4 ≤ img.data.length →
    readBytes img.data j = [0, 0, 0, 255] →
    readBytes img2.data j = [0, 0, 0, 255] := by
  intro ws
  induction ws with
  | nil =>
    intro img img2 j h _ _ _ hread
    cases h
    exact hread
  | cons w ws ih =>
    intro img img2 j h hblack hdvd hjlen hread
    unfold applyWrites at h
    cases hset : img.set w.1.1 w.1.2 w.2 with
    | none => rw [hset] at h; cases h
    | some img1 =>
      rw [hset] at h
      obtain ⟨hc, him⟩ := set_some_elim hset
      have hb : w.2 = [0, 0, 0, 255] := hblack w (List.mem_cons_self _ _)
      have h4 : w.2.length = 4 := by rw [hb]; rfl
      have hidvd := indexIn_dvd img.width w.1.1 w.1.2
      have hlen1 : img1.data.length = img.data.length := by
        rw [him]
        exact writeBytes_length _ _ _ h4 hc
      have hstep : readBytes img1.data j = [0, 0, 0, 255] := by
        by_cases heq : indexIn img.width w.1.1 w.1.2 = j
        · rw [him, ← heq]
          rw [readBytes_writeBytes_self _ _ _ h4 hc, hb]
        · rw [him]
          rw [readBytes_writeBytes_disjoint _ _ _ _ h4 hc (by omega)]
          exact hread
      exact ih img1 img2 j h (fun v hv => hblack v (List.mem_cons_of_mem _ hv)) hdvd
        (by omega) hstep

theorem applyWrites_black_mem : ∀ (ws : List PixelWrite) (img img2 : SimpleImage),
    applyWrites img ws = some img2 →
    (∀ w ∈ ws, w.2 = [0, 0, 0, 255]) →
    ∀ w ∈ ws,
      indexIn img.width w.1.1 w.1.2 + 4 ≤ img.data.length →
      readBytes img2.data (indexIn img.width w.1.1 w.1.2) = [0, 0, 0, 255] := by
  intro ws
  induction ws with
  | nil =>
    intro img img2 _ _ w hw
    cases hw
  | cons w0 ws ih =>
    intro img img2 h hblack w hw hwlen
    unfold applyWrites at h
    cases hset : img.set w0.1.1 w0.1.2 w0.2 with
    | none => rw [hset] at h; cases h
    | some img1 =>
      rw [hset] at h
      obtain ⟨hc, him⟩ := set_some_elim hset
      have hb0 : w0.2 = [0, 0, 0, 255] := hblack w0 (List.mem_cons_self _ _)
      have h40 : w0.2.length = 4 := by rw [hb0]; rfl
      have hw1 : img1.width = img.width := by rw [him]
      have hlen1 : img1.data.length = img.data.length := by
        rw [him]
        exact writeBytes_length _ _ _ h40 hc
      rcases List.mem_cons.mp hw with rfl | hwtail
      · have hstart : readBytes img1.data (indexIn img.width w.1.1 w.1.2) =
            [0, 0, 0, 255] := by
          rw [him, readBytes_writeBytes_self _ _ _ h40 hc, hb0]
        exact black_persist ws img1 img2 _ h
          (fun v hv => hblack v (List.mem_cons_of_mem _ hv))
          (indexIn_dvd _ _ _) (by omega) hstart
      · have := ih img1 img2 h (fun v hv => hblack v (List.mem_cons_of_mem _ hv))
          w hwtail
        rw [hw1, hlen1] at this
        exact this hwlen

theorem toU32_of_nonneg_lt (x : ℤ) (h0 : 0 ≤ x) (h : x < 2 ^ 32) : toU32 x = x.toNat := by
  unfold toU32
  rw [Int.emod_eq_of_lt h0 h]

theorem applyWrites_single (img : SimpleImage) (w : PixelWrite) :
    applyWrites img [w] = img.set w.1.1 w.1.2 w.2 := by
  unfold applyWrites
  cases h : img.set w.1.1 w.1.2 w.2 with
  | none => rfl
  | some img2 => rfl

theorem strokeWrites_color (lines : List (Point × Point)) :
    ∀ w ∈ strokeWrites lines, w.2 = [0, 0, 0, 255] := by
  intro w hw
  simp only [strokeWrites, List.mem_flatMap, List.mem_map] at hw
  obtain ⟨l, hl, q, hq, rfl⟩ := hw
  rfl

theorem fillWrites_color (lines : List (Point × Point)) (col : List ℕ) :
    ∀ w ∈ fillWrites lines col, w.2 = col := by
  intro w hw
  simp only [fillWrites, List.mem_flatMap, List.mem_map] at hw
  obtain ⟨y, hy, p, hp, x, hx, rfl⟩ := hw
  rfl

theorem mem_strokeWrites (lines : List (Point × Point)) (l : Point × Point) (q : ℤ × ℤ)
    (hl : l ∈ lines)
    (hq : q ∈ bresenham (f64ToI32 l.1.x, f64ToI32 l.1.y) (f64ToI32 l.2.x, f64ToI32 l.2.y)) :
    ((toU32 q.1, toU32 q.2), [0, 0, 0, 255]) ∈ strokeWrites lines := by
  simp only [strokeWrites, List.mem_flatMap, List.mem_map]
  exact ⟨l, hl, q, hq, rfl⟩

theorem bresenham_self (a b : ℤ) : bresenham (a, b) (a, b) = [(a, b)] := by
  simp [bresenham, bresenhamAux]

theorem edges_mem_eq (poly : List Point) (p : Point) (hall : ∀ q ∈ poly, q = p)
    (l : Point × Point) (hl : l ∈ edges poly) : l.1 = p ∧ l.2 = p := by
  obtain ⟨a, b⟩ := l
  unfold edges at hl
  have h1 := List.of_mem_zip hl
  exact ⟨hall _ h1.1, hall _ (List.mem_rotate.mp h1.2)⟩

theorem fillWrites_nil_of_const (poly : List Point) (p : Point) (col : List ℕ)
    (hall : ∀ q ∈ poly, q = p) : fillWrites (edges poly) col = [] := by
  unfold fillWrites
  apply List.flatMap_eq_nil_iff.mpr
  intro y hy
  have hint : intersectionsAt (edges poly) y = [] := by
    unfold intersectionsAt
    have : (edges poly).filterMap (edgeIntersection y) = [] := by
      apply List.filterMap_eq_nil_iff.mpr
      intro l hl
      have he := edges_mem_eq poly p hall l hl
      unfold edgeIntersection
      rw [if_pos (by rw [he.1, he.2])]
    rw [this]
    rfl
  rw [hint]
  rfl

/-- C1: the out-of-range pixel access `(width, 0)` on a 2 × 2 buffer does not fail: the
`Index`/`IndexMut` impls check only the flattened byte range, so the access silently aliases
pixel `(0, 1)` — reading succeeds, and writing through the index stores into pixel `(0, 1)`. -/
theorem C1_oob_access_aliases :
    (SimpleImage.new 2 2).get 2 0 = some [0, 0, 0, 0] ∧
    (SimpleImage.new 2 2).set 2 0 [9, 9, 9, 9] =
      some { data := [0, 0, 0, 0, 0, 0, 0, 0, 9, 9, 9, 9, 0, 0, 0, 0],
             width := 2, height := 2 } ∧
    ({ data := [0, 0, 0, 0, 0, 0, 0, 0, 9, 9, 9, 9, 0, 0, 0, 0],
       width := 2, height := 2 } : SimpleImage).get 0 1 = some [9, 9, 9, 9] := by
  refine ⟨by decide, by decide, by decide⟩

/-- C9: when no glyph has a bounding box, `create_text_image` succeeds and returns the
zero-sized buffer (`width = height = 0`). -/
theorem C9_no_bbox_empty (glyphs : List Glyph) (color : ℕ × ℕ × ℕ)
    (h : ∀ g ∈ glyphs, g.bbox = none) :
    create_text_image glyphs color = some (SimpleImage.new 0 0) ∧
    (SimpleImage.new 0 0).width = 0 ∧ (SimpleImage.new 0 0).height = 0 := by
  have hfm : glyphs.filterMap Glyph.bbox = [] := List.filterMap_eq_nil_iff.mpr h
  have htb : textBounds glyphs = (0, 0, 0) := by
    unfold textBounds
    rw [hfm]
    rfl
  have hgw : glyphs.flatMap (glyphWrites (textBounds glyphs).1 color) = [] := by
    apply List.flatMap_eq_nil_iff.mpr
    intro g hg
    unfold glyphWrites
    rw [h g hg]
  unfold create_text_image
  rw [hgw, htb]
  exact ⟨rfl, rfl, rfl⟩

/-- Witness for C9 on a one-glyph layout without a bounding box. -/
theorem C9_no_bbox_empty_witness :
    create_text_image [⟨none, [(0, 0, 1)]⟩] (1, 2, 3) = some (SimpleImage.new 0 0) ∧
    (SimpleImage.new 0 0).width = 0 ∧ (SimpleImage.new 0 0).height = 0 :=
  C9_no_bbox_empty [⟨none, [(0, 0, 1)]⟩] (1, 2, 3) (by decide)

/-- C7 counterexample, refuting both parts of the claim at explicit inputs.  First, the
degenerate polygon consisting of the single vertex `(-1, -1)` makes `draw_polygon` fail on a
2 × 2 image — the outline store wraps to a huge `u32` index and the slice access panics —
contradicting that degenerate inputs must not fail.  Second, the zero-area polygon
`[(0, 0), (1, 4)]` (two distinct vertices, all on one line) produces fill stores, and on a
2 × 5 image the finished buffer keeps the fill color at pixel `(0, 3)` (a pixel the black
stroke never covers) — contradicting that degenerate polygons produce no fill pixels. -/
theorem C7_counterexample :
    draw_polygon (SimpleImage.new 2 2) [Point.mk (-1) (-1)] [7, 7, 7, 7] = none ∧
    fillWrites (edges [Point.mk 0 0, Point.mk 1 4]) [7, 7, 7, 7] =
      [((0, 0), [7, 7, 7, 7]), ((0, 0), [7, 7, 7, 7]), ((0, 1), [7, 7, 7, 7]),
       ((0, 1), [7, 7, 7, 7]), ((0, 2), [7, 7, 7, 7]), ((0, 2), [7, 7, 7, 7]),
       ((0, 3), [7, 7, 7, 7]), ((0, 3), [7, 7, 7, 7])] ∧
    draw_polygon (SimpleImage.new 2 5) [Point.mk 0 0, Point.mk 1 4] [7, 7, 7, 7] =
      some { data := [0, 0, 0, 255, 0, 0, 0, 0, 0, 0, 0, 255, 0, 0, 0, 0,
                      0, 0, 0, 255, 0, 0, 0, 255, 7, 7, 7, 7, 0, 0, 0, 255,
                      0, 0, 0, 0, 0, 0, 0, 255], width := 2, height := 5 } ∧
    ({ data := [0, 0, 0, 255, 0, 0, 0, 0, 0, 0, 0, 255, 0, 0, 0, 0,
                0, 0, 0, 255, 0, 0, 0, 255, 7, 7, 7, 7, 0, 0, 0, 255,
                0, 0, 0, 0, 0, 0, 0, 255], width := 2, height := 5 } : SimpleImage).get 0 3 =
      some [7, 7, 7, 7] := by
  refine ⟨by with_unfolding_all decide, by with_unfolding_all decide,
    by with_unfolding_all decide, by decide⟩

/-- C7 (amended), changed exactly as the two counterexamples force.  The outline step still
strokes whatever edges exist, but: the call can fail when a store's wrapped byte range
leaves the buffer (the `[(-1, -1)]` counterexample), and a zero-area polygon with at least
two distinct vertices can paint fill pixels along its line (the `[(0, 0), (1, 4)]`
counterexample), so the no-fill guarantee survives only for degenerate polygons whose
vertices all coincide: such a polygon produces no fill store at all, `draw_polygon` on it
reduces to the outline pass, and for a single vertex the whole call is exactly one black
store at the truncated vertex pixel. -/
theorem C7_degenerate (img : SimpleImage) (p : Point) (poly : List Point) (color : List ℕ)
    (hall : ∀ q ∈ poly, q = p) :
    fillWrites (edges poly) color = [] ∧
    draw_polygon img poly color = applyWrites img (strokeWrites (edges poly)) ∧
    (poly = [p] →
      draw_polygon img poly color =
        img.set (toU32 (f64ToI32 p.x)) (toU32 (f64ToI32 p.y)) [0, 0, 0, 255]) := by
  have hfe := fillWrites_nil_of_const poly p color hall
  refine ⟨hfe, ?_, ?_⟩
  · unfold draw_polygon
    rw [hfe]
    rfl
  · intro hp
    subst hp
    unfold draw_polygon
    rw [hfe]
    have he : edges [p] = [(p, p)] := by
      unfold edges
      rw [List.rotate_singleton]
      rfl
    have hs : strokeWrites (edges [p]) =
        [((toU32 (f64ToI32 p.x), toU32 (f64ToI32 p.y)), [0, 0, 0, 255])] := by
      rw [he]
      simp only [strokeWrites, List.flatMap_cons, List.flatMap_nil, List.append_nil]
      rw [bresenham_self]
      rfl
    show applyWrites img (strokeWrites (edges [p])) = _
    rw [hs, applyWrites_single]

/-- Witness for C7 on a concrete in-bounds single-vertex polygon. -/
theorem C7_degenerate_witness :
    fillWrites (edges [Point.mk 1 1]) [7, 7, 7, 7] = [] ∧
    draw_polygon (SimpleImage.new 2 2) [Point.mk 1 1] [7, 7, 7, 7] =
      applyWrites (SimpleImage.new 2 2) (strokeWrites (edges [Point.mk 1 1])) ∧
    ([Point.mk 1 1] = [Point.mk 1 1] →
      draw_polygon (SimpleImage.new 2 2) [Point.mk 1 1] [7, 7, 7, 7] =
        (SimpleImage.new 2 2).set (toU32 (f64ToI32 (1 : ℚ))) (toU32 (f64ToI32 (1 : ℚ)))
          [0, 0, 0, 255]) :=
  C7_degenerate (SimpleImage.new 2 2) (Point.mk 1 1) [Point.mk 1 1] [7, 7, 7, 7] (by decide)

/-- C5 counterexample: the stroke endpoints are converted with `as i32`, which truncates
toward zero, not to the nearest integer: for the single-vertex polygon at `x = 8/5` the
stroked pixel is `(1, 0)` (truncation), while rounding to nearest would stroke `(2, 0)`,
which stays untouched (alpha `0`, not an opaque black stroke). -/
theorem C5_counterexample :
    draw_polygon (SimpleImage.new 3 1) [Point.mk (8 / 5) 0] [7, 7, 7, 7] =
      some { data := [0, 0, 0, 0, 0, 0, 0, 255, 0, 0, 0, 0], width := 3, height := 1 } ∧
    f64ToI32 (8 / 5) = 1 ∧ round ((8 : ℚ) / 5) = 2 ∧
    ({ data := [0, 0, 0, 0, 0, 0, 0, 255, 0, 0, 0, 0],
       width := 3, height := 1 } : SimpleImage).get 2 0 = some [0, 0, 0, 0] := by
  refine ⟨by with_unfolding_all decide, by with_unfolding_all decide,
    by rw [show ((8 : ℚ) / 5) = 8 / 5 from rfl]; norm_num [round_eq], by decide⟩

/-- C5 (amended): after the fill pass, `draw_polygon` strokes every polygon edge with opaque
black `[0, 0, 0, 255]` along the Bresenham line between the edge endpoints converted with
`as i32`, i.e. truncated toward zero (not rounded to nearest): whenever the call succeeds,
every in-bounds pixel of the Bresenham line of every edge ends up opaque black. -/
theorem C5_stroke_truncated_black (img : SimpleImage) (poly : List Point)
    (color : List ℕ) (img2 : SimpleImage)
    (hcol : color.length = 4)
    (hdraw : draw_polygon img poly color = some img2)
    (l : Point × Point) (hl : l ∈ edges poly) (q : ℤ × ℤ)
    (hq : q ∈ bresenham (f64ToI32 l.1.x, f64ToI32 l.1.y) (f64ToI32 l.2.x, f64ToI32 l.2.y))
    (hx0 : 0 ≤ q.1) (hx : q.1 < (img.width : ℤ))
    (hy0 : 0 ≤ q.2) (hy : q.2 < (img.height : ℤ))
    (hlen : img.data.length = 4 * img.width * img.height)
    (hsz : 4 * img.width * img.height ≤ U32) :
    img2.get (toU32 q.1) (toU32 q.2) = some [0, 0, 0, 255] := by
  unfold draw_polygon at hdraw
  cases hfill : applyWrites img (fillWrites (edges poly) color) with
  | none => rw [hfill] at hdraw; cases hdraw
  | some img1 =>
    rw [hfill] at hdraw
    have hfc : ∀ w ∈ fillWrites (edges poly) color, w.2.length = 4 := by
      intro w hw
      rw [fillWrites_color _ _ w hw]
      exact hcol
    have hdims1 := applyWrites_some_dims _ _ _ hfill hfc
    have hsc := strokeWrites_color (edges poly)
    have hsl : ∀ w ∈ strokeWrites (edges poly), w.2.length = 4 := by
      intro w hw
      rw [hsc w hw]
      rfl
    have hdims2 := applyWrites_some_dims _ _ _ hdraw hsl
    have hxn : q.1.toNat < img.width := by omega
    have hyn : q.2.toNat < img.height := by omega
    have hh1 : 1 ≤ img.height := by omega
    have hwbig : img.width ≤ 4 * img.width * img.height := by
      have h1 : img.width * 1 ≤ img.width * (4 * img.height) :=
        Nat.mul_le_mul_left img.width (by omega)
      have h2 : img.width * (4 * img.height) = 4 * img.width * img.height := by ring
      omega
    have hhbig : img.height ≤ 4 * img.width * img.height := by
      have hw1 : 1 ≤ img.width := by omega
      have h1 : img.height * 1 ≤ img.height * (4 * img.width) :=
        Nat.mul_le_mul_left img.height (by omega)
      have h2 : img.height * (4 * img.width) = 4 * img.width * img.height := by ring
      omega
    have hu1 : toU32 q.1 = q.1.toNat := by
      apply toU32_of_nonneg_lt _ hx0
      have : (img.width : ℤ) ≤ (U32 : ℤ) := by exact_mod_cast le_trans hwbig hsz
      have hU : ((U32 : ℕ) : ℤ) = 2 ^ 32 := by norm_num [U32]
      omega
    have hu2 : toU32 q.2 = q.2.toNat := by
      apply toU32_of_nonneg_lt _ hy0
      have : (img.height : ℤ) ≤ (U32 : ℤ) := by exact_mod_cast le_trans hhbig hsz
      have hU : ((U32 : ℕ) : ℤ) = 2 ^ 32 := by norm_num [U32]
      omega
    have hidx := indexIn_of_lt img.width img.height q.1.toNat q.2.toNat hxn hyn hsz
    have hmem := mem_strokeWrites (edges poly) l q hl hq
    have hb1 : indexIn img1.width (toU32 q.1) (toU32 q.2) + 4 ≤ img1.data.length := by
      rw [hdims1.1, hdims1.2.2, hu1, hu2, hlen, hidx.1]
      exact hidx.2
    have hread := applyWrites_black_mem (strokeWrites (edges poly)) img1 img2 hdraw hsc
      ((toU32 q.1, toU32 q.2), [0, 0, 0, 255]) hmem hb1
    unfold SimpleImage.get SimpleImage.index_of
    rw [show indexIn img2.width (toU32 q.1) (toU32 q.2) =
      indexIn img1.width (toU32 q.1) (toU32 q.2) by rw [hdims2.1]]
    rw [if_pos (by rw [hdims2.2.2]; exact hb1), hread]

/-- Witness for C5 on a concrete polygon with a fractional vertex. -/
theorem C5_stroke_truncated_black_witness :
    ({ data := [0, 0, 0, 0, 0, 0, 0, 255, 0, 0, 0, 0],
       width := 3, height := 1 } : SimpleImage).get (toU32 1) (toU32 0) =
      some [0, 0, 0, 255] :=
  C5_stroke_truncated_black (SimpleImage.new 3 1) [Point.mk (8 / 5) 0] [7, 7, 7, 7]
    { data := [0, 0, 0, 0, 0, 0, 0, 255, 0, 0, 0, 0], width := 3, height := 1 }
    (by decide) (by with_unfolding_all decide)
    (Point.mk (8 / 5) 0, Point.mk (8 / 5) 0) (by with_unfolding_all decide) (1, 0)
    (by with_unfolding_all decide) (by decide) (by decide) (by decide) (by decide)
    (by decide) (by decide)

/-- C10 counterexample: on a 2 × 2 image, the polygon with the single out-of-range vertex
`(2, 0)` has no fill span and its only stroke pixel is `(2, 0)`, yet `draw_polygon` changes
pixel `(0, 1)` (the wrapped byte range aliases it) — so a pixel neither in a fill span nor on
a stroke does not retain its bytes. -/
theorem C10_counterexample :
    draw_polygon (SimpleImage.new 2 2) [Point.mk 2 0] [7, 7, 7, 7] =
      some { data := [0, 0, 0, 0, 0, 0, 0, 0, 0, 0, 0, 255, 0, 0, 0, 0],
             width := 2, height := 2 } ∧
    fillWrites (edges [Point.mk 2 0]) [7, 7, 7, 7] = [] ∧
    strokeWrites (edges [Point.mk 2 0]) = [((2, 0), [0, 0, 0, 255])] ∧
    ((0, 1) : ℕ × ℕ) ≠ (2, 0) ∧
    ({ data := [0, 0, 0, 0, 0, 0, 0, 0, 0, 0, 0, 255, 0, 0, 0, 0],
       width := 2, height := 2 } : SimpleImage).get 0 1 = some [0, 0, 0, 255] ∧
    (SimpleImage.new 2 2).get 0 1 = some [0, 0, 0, 0] := by
  refine ⟨by with_unfolding_all decide, by with_unfolding_all decide,
    by with_unfolding_all decide, by decide, by decide, by decide⟩

/-- C10 (amended): a successful `draw_polygon` leaves width and height unchanged and
modifies only bytes inside the (u32-wrapped, hence possibly aliased) byte ranges targeted by
some fill-span store or some stroke store; every byte outside all those ranges retains its
previous value. -/
theorem C10_frame (img : SimpleImage) (poly : List Point) (color : List ℕ)
    (img2 : SimpleImage) (hcol : color.length = 4)
    (hdraw : draw_polygon img poly color = some img2) :
    img2.width = img.width ∧ img2.height = img.height ∧
    img2.data.length = img.data.length ∧
    ∀ i : ℕ,
      (∀ w ∈ fillWrites (edges poly) color ++ strokeWrites (edges poly),
        ¬ (indexIn img.width w.1.1 w.1.2 ≤ i ∧
          i < indexIn img.width w.1.1 w.1.2 + 4)) →
      img2.data[i]? = img.data[i]? := by
  unfold draw_polygon at hdraw
  cases hfill : applyWrites img (fillWrites (edges poly) color) with
  | none => rw [hfill] at hdraw; cases hdraw
  | some img1 =>
    rw [hfill] at hdraw
    have hfc : ∀ w ∈ fillWrites (edges poly) color, w.2.length = 4 := by
      intro w hw
      rw [fillWrites_color _ _ w hw]
      exact hcol
    have hsl : ∀ w ∈ strokeWrites (edges poly), w.2.length = 4 := by
      intro w hw
      rw [strokeWrites_color _ w hw]
      rfl
    have hdims1 := applyWrites_some_dims _ _ _ hfill hfc
    have hdims2 := applyWrites_some_dims _ _ _ hdraw hsl
    refine ⟨by rw [hdims2.1, hdims1.1], by rw [hdims2.2.1, hdims1.2.1],
      by rw [hdims2.2.2, hdims1.2.2], ?_⟩
    intro i hi
    have hi1 : ∀ w ∈ fillWrites (edges poly) color,
        ¬ (indexIn img.width w.1.1 w.1.2 ≤ i ∧
          i < indexIn img.width w.1.1 w.1.2 + 4) :=
      fun w hw => hi w (List.mem_append_left _ hw)
    have hi2 : ∀ w ∈ strokeWrites (edges poly),
        ¬ (indexIn img1.width w.1.1 w.1.2 ≤ i ∧
          i < indexIn img1.width w.1.1 w.1.2 + 4) := by
      rw [hdims1.1]
      exact fun w hw => hi w (List.mem_append_right _ hw)
    have h1 := applyWrites_frame _ _ _ hfill hfc i hi1
    have h2 := applyWrites_frame _ _ _ hdraw hsl i hi2
    rw [h2, h1]

/-- Witness for C10 on a concrete polygon: a byte far from the single stroked pixel is
untouched. -/
theorem C10_frame_witness :
    ({ data := [0, 0, 0, 255, 0, 0, 0, 0, 0, 0, 0, 0, 0, 0, 0, 0],
       width := 2, height := 2 } : SimpleImage).data[12]? =
      (SimpleImage.new 2 2).data[12]? :=
  (C10_frame (SimpleImage.new 2 2) [Point.mk 0 0] [7, 7, 7, 7]
    { data := [0, 0, 0, 255, 0, 0, 0, 0, 0, 0, 0, 0, 0, 0, 0, 0], width := 2, height := 2 }
    (by decide) (by with_unfolding_all decide)).2.2.2 12 (by with_unfolding_all decide)

theorem applyWrites_cons (img : SimpleImage) (w : PixelWrite) (ws : List PixelWrite) :
    applyWrites img (w :: ws) =
      match img.set w.1.1 w.1.2 w.2 with
      | none => none
      | some img1 => applyWrites img1 ws := rfl

theorem applyWrites_append (ws1 ws2 : List PixelWrite) (img : SimpleImage) :
    applyWrites img (ws1 ++ ws2) =
      match applyWrites img ws1 with
      | none => none
      | some im => applyWrites im ws2 := by
  induction ws1 generalizing img with
  | nil => rfl
  | cons w t ih =>
    rw [List.cons_append, applyWrites_cons, applyWrites_cons]
    cases hset : img.set w.1.1 w.1.2 w.2 with
    | none => rfl
    | some img1 => exact (ih img1).trans rfl

theorem indexIn_inj (wdt hgt x1 y1 x2 y2 : ℕ) (hx1 : x1 < wdt) (hy1 : y1 < hgt)
    (hx2 : x2 < wdt) (hy2 : y2 < hgt) (hsz : 4 * wdt * hgt ≤ U32)
    (h : indexIn wdt x1 y1 = indexIn wdt x2 y2) : x1 = x2 ∧ y1 = y2 := by
  have h1 := indexIn_of_lt wdt hgt x1 y1 hx1 hy1 hsz
  have h2 := indexIn_of_lt wdt hgt x2 y2 hx2 hy2 hsz
  rw [h1.1, h2.1] at h
  have h3 : y1 * wdt + x1 = y2 * wdt + x2 := by omega
  have e1 : x1 = (y1 * wdt + x1) % wdt := by
    rw [mul_comm, Nat.mul_add_mod, Nat.mod_eq_of_lt hx1]
  have e2 : x2 = (y2 * wdt + x2) % wdt := by
    rw [mul_comm, Nat.mul_add_mod, Nat.mod_eq_of_lt hx2]
  rw [h3] at e1
  have hx : x1 = x2 := by omega
  refine ⟨hx, ?_⟩
  have hw : 0 < wdt := by omega
  have h4 : y1 * wdt = y2 * wdt := by omega
  exact Nat.eq_of_mul_eq_mul_right hw h4

theorem textBounds_single (b : Bbox) (cov : List (ℕ × ℕ × ℚ)) :
    textBounds [⟨some b, cov⟩] = (min 0 b.minY, max 0 b.maxY, max 0 b.maxX) := rfl

/-- C8 counterexample: the glyph compositor stores alpha `(255.0 * w) as u8`, which
truncates toward zero; at coverage `w = 1/2` the stored alpha is `127`, while rounding
`255 × 1/2` to the nearest integer gives `128`. -/
theorem C8_counterexample :
    create_text_image [⟨some ⟨0, 0, 1, 1⟩, [(0, 0, 1 / 2)]⟩] (10, 20, 30) =
      some { data := [30, 20, 10, 127], width := 1, height := 1 } ∧
    f32ToU8 (255 * (1 / 2)) = 127 ∧
    round ((255 : ℚ) * (1 / 2)) = 128 ∧ (127 : ℕ) ≠ 128 := by
  refine ⟨by with_unfolding_all decide, by with_unfolding_all decide, ?_, by decide⟩
  norm_num [round_eq]

/-- C8 (amended): for a glyph with a bounding box, each covered pixel `(x, y, w)` reported
by the coverage callback is stored at the glyph-local offset `(x + bbox.min.x,
y + bbox.min.y - y_min)` with the color channels in swapped (BGRA) order and alpha
`(255.0 × w) as u8`, i.e. `255 × w` truncated toward zero (not rounded to nearest): when
compositing succeeds and the coverage entries land on distinct in-bounds pixels, the entry's
target pixel holds exactly those bytes. -/
theorem C8_glyph_pixel (bbox : Bbox) (cov l1 l2 : List (ℕ × ℕ × ℚ)) (c : ℕ × ℕ × ℕ)
    (img2 : SimpleImage) (e : ℕ × ℕ × ℚ)
    (hsucc : create_text_image [⟨some bbox, cov⟩] c = some img2)
    (hsplit : cov = l1 ++ e :: l2)
    (hin : ∀ f ∈ cov, 0 ≤ (glyphTarget bbox (min 0 bbox.minY) f).1 ∧
      (glyphTarget bbox (min 0 bbox.minY) f).1 < (toU32 (max 0 bbox.maxX) : ℤ) ∧
      0 ≤ (glyphTarget bbox (min 0 bbox.minY) f).2 ∧
      (glyphTarget bbox (min 0 bbox.minY) f).2 <
        (toU32 (max 0 bbox.maxY - min 0 bbox.minY) : ℤ))
    (hlast : ∀ f ∈ l2, glyphTarget bbox (min 0 bbox.minY) f ≠
      glyphTarget bbox (min 0 bbox.minY) e)
    (hsz : 4 * toU32 (max 0 bbox.maxX) * toU32 (max 0 bbox.maxY - min 0 bbox.minY) ≤ U32) :
    img2.get (toU32 (glyphTarget bbox (min 0 bbox.minY) e).1)
        (toU32 (glyphTarget bbox (min 0 bbox.minY) e).2) =
      some [c.2.2, c.2.1, c.1, f32ToU8 (255 * e.2.2)] := by
  have hymin : (textBounds [⟨some bbox, cov⟩]).1 = min 0 bbox.minY := by
    rw [textBounds_single]
  have hW : toU32 (textBounds [⟨some bbox, cov⟩]).2.2 = toU32 (max 0 bbox.maxX) := by
    rw [textBounds_single]
  have hH : toU32 ((textBounds [⟨some bbox, cov⟩]).2.1 - (textBounds [⟨some bbox, cov⟩]).1)
      = toU32 (max 0 bbox.maxY - min 0 bbox.minY) := by
    rw [textBounds_single]
  set W := toU32 (max 0 bbox.maxX) with hWdef
  set H := toU32 (max 0 bbox.maxY - min 0 bbox.minY) with hHdef
  set ymin := min 0 bbox.minY with hymindef
  have hws : ([⟨some bbox, cov⟩] : List Glyph).flatMap
        (glyphWrites (textBounds [⟨some bbox, cov⟩]).1 c) =
      cov.map (fun f => ((toU32 (glyphTarget bbox ymin f).1, toU32 (glyphTarget bbox ymin f).2),
        [c.2.2, c.2.1, c.1, f32ToU8 (255 * f.2.2)])) := by
    rw [hymin]
    simp [glyphWrites]
  unfold create_text_image at hsucc
  rw [hws, hW, hH] at hsucc
  set wfun := fun f : ℕ × ℕ × ℚ =>
    (((toU32 (glyphTarget bbox ymin f).1, toU32 (glyphTarget bbox ymin f).2),
      [c.2.2, c.2.1, c.1, f32ToU8 (255 * f.2.2)]) : PixelWrite) with hwfun
  have hlen4 : ∀ (l : List (ℕ × ℕ × ℚ)), ∀ w ∈ l.map wfun, w.2.length = 4 := by
    intro l w hw
    obtain ⟨f, hf, rfl⟩ := List.mem_map.mp hw
    rfl
  rw [hsplit, List.map_append, List.map_cons, applyWrites_append] at hsucc
  cases hA : applyWrites (SimpleImage.new W H) (l1.map wfun) with
  | none => rw [hA] at hsucc; cases hsucc
  | some imgA =>
    rw [hA] at hsucc
    unfold applyWrites at hsucc
    cases hset : imgA.set (wfun e).1.1 (wfun e).1.2 (wfun e).2 with
    | none => rw [hset] at hsucc; cases hsucc
    | some imgB =>
      rw [hset] at hsucc
      obtain ⟨hbound, himB⟩ := set_some_elim hset
      have hdimsA := applyWrites_some_dims _ _ _ hA (hlen4 l1)
      have hlen0 : (SimpleImage.new W H).data.length = 4 * W * H := by
        simp [SimpleImage.new]
      have hwid0 : (SimpleImage.new W H).width = W := rfl
      have hwidA : imgA.width = W := by rw [hdimsA.1]; exact hwid0
      have hlenA : imgA.data.length = 4 * W * H := by rw [hdimsA.2.2]; exact hlen0
      have hwidB : imgB.width = W := by rw [himB]; exact hwidA
      have hlenB : imgB.data.length = 4 * W * H := by
        rw [himB]
        have : (writeBytes imgA.data (indexIn imgA.width (wfun e).1.1 (wfun e).1.2)
            (wfun e).2).length = imgA.data.length := writeBytes_length _ _ _ rfl hbound
        rw [this, hlenA]
      have hdimsB := applyWrites_some_dims _ _ _ hsucc (hlen4 l2)
      -- nat coordinates of the written entries are in bounds
      have hnat : ∀ f ∈ cov, toU32 (glyphTarget bbox ymin f).1 < W ∧
          toU32 (glyphTarget bbox ymin f).2 < H := by
        intro f hf
        obtain ⟨hf1, hf2, hf3, hf4⟩ := hin f hf
        have hu1 : toU32 (glyphTarget bbox ymin f).1 = (glyphTarget bbox ymin f).1.toNat := by
          apply toU32_of_nonneg_lt _ hf1
          have hWlt : (W : ℤ) ≤ 2 ^ 32 := by
            have : W < 2 ^ 32 := by
              unfold toU32 at hWdef
              rw [hWdef]
              omega
            omega
          omega
        have hu2 : toU32 (glyphTarget bbox ymin f).2 = (glyphTarget bbox ymin f).2.toNat := by
          apply toU32_of_nonneg_lt _ hf3
          have hHlt : (H : ℤ) ≤ 2 ^ 32 := by
            have : H < 2 ^ 32 := by
              unfold toU32 at hHdef
              rw [hHdef]
              omega
            omega
          omega
        rw [hu1, hu2]
        omega
      have heC : e ∈ cov := by rw [hsplit]; exact List.mem_append_right _ (List.mem_cons_self _ _)
      have heB : toU32 (glyphTarget bbox ymin e).1 < W ∧ toU32 (glyphTarget bbox ymin e).2 < H :=
        hnat e heC
      -- the write of `e` stores exactly the expected bytes
      have hreadB : readBytes imgB.data (indexIn W (toU32 (glyphTarget bbox ymin e).1)
          (toU32 (glyphTarget bbox ymin e).2)) = [c.2.2, c.2.1, c.1, f32ToU8 (255 * e.2.2)] := by
        rw [himB]
        have : indexIn imgA.width (wfun e).1.1 (wfun e).1.2 =
            indexIn W (toU32 (glyphTarget bbox ymin e).1) (toU32 (glyphTarget bbox ymin e).2) := by
          rw [hwidA]
        rw [this] at hbound ⊢
        exact readBytes_writeBytes_self _ _ _ rfl hbound
      have hboundW : indexIn W (toU32 (glyphTarget bbox ymin e).1)
          (toU32 (glyphTarget bbox ymin e).2) + 4 ≤ 4 * W * H := by
        have : indexIn imgA.width (wfun e).1.1 (wfun e).1.2 =
            indexIn W (toU32 (glyphTarget bbox ymin e).1) (toU32 (glyphTarget bbox ymin e).2) := by
          rw [hwidA]
        rw [this, hlenA] at hbound
        exact hbound
      -- the later writes never touch the four bytes of `e`
      have hframe : ∀ k, k < 4 →
          img2.data[indexIn W (toU32 (glyphTarget bbox ymin e).1)
            (toU32 (glyphTarget bbox ymin e).2) + k]? =
          imgB.data[indexIn W (toU32 (glyphTarget bbox ymin e).1)
            (toU32 (glyphTarget bbox ymin e).2) + k]? := by
        intro k hk
        apply applyWrites_frame _ _ _ hsucc (hlen4 l2)
        intro w hw
        obtain ⟨f, hf, rfl⟩ := List.mem_map.mp hw
        have hfC : f ∈ cov := by
          rw [hsplit]
          exact List.mem_append_right _ (List.mem_cons_of_mem _ hf)
        have hfB := hnat f hfC
        have hidxf := indexIn_of_lt W H _ _ hfB.1 hfB.2 hsz
        have hidxe := indexIn_of_lt W H _ _ heB.1 heB.2 hsz
        have hne : indexIn W (toU32 (glyphTarget bbox ymin f).1)
            (toU32 (glyphTarget bbox ymin f).2) ≠
            indexIn W (toU32 (glyphTarget bbox ymin e).1)
            (toU32 (glyphTarget bbox ymin e).2) := by
          intro hcontra
          obtain ⟨hxeq, hyeq⟩ := indexIn_inj W H _ _ _ _ hfB.1 hfB.2 heB.1 heB.2 hsz hcontra
          apply hlast f hf
          obtain ⟨hf1, hf2, hf3, hf4⟩ := hin f hfC
          obtain ⟨he1, he2, he3, he4⟩ := hin e heC
          have hWlt : (W : ℤ) ≤ 2 ^ 32 := by
            have : W < 2 ^ 32 := by
              unfold toU32 at hWdef
              rw [hWdef]
              omega
            omega
          have hHlt : (H : ℤ) ≤ 2 ^ 32 := by
            have : H < 2 ^ 32 := by
              unfold toU32 at hHdef
              rw [hHdef]
              omega
            omega
          have hu1 : toU32 (glyphTarget bbox ymin f).1 = (glyphTarget bbox ymin f).1.toNat :=
            toU32_of_nonneg_lt _ hf1 (by omega)
          have hu2 : toU32 (glyphTarget bbox ymin f).2 = (glyphTarget bbox ymin f).2.toNat :=
            toU32_of_nonneg_lt _ hf3 (by omega)
          have hu3 : toU32 (glyphTarget bbox ymin e).1 = (glyphTarget bbox ymin e).1.toNat :=
            toU32_of_nonneg_lt _ he1 (by omega)
          have hu4 : toU32 (glyphTarget bbox ymin e).2 = (glyphTarget bbox ymin e).2.toNat :=
            toU32_of_nonneg_lt _ he3 (by omega)
          rw [hu1, hu3] at hxeq
          rw [hu2, hu4] at hyeq
          have : (glyphTarget bbox ymin f).1 = (glyphTarget bbox ymin e).1 := by omega
          have h2c : (glyphTarget bbox ymin f).2 = (glyphTarget bbox ymin e).2 := by omega
          exact Prod.ext this h2c
        have hdvdf := indexIn_dvd W (toU32 (glyphTarget bbox ymin f).1)
          (toU32 (glyphTarget bbox ymin f).2)
        have hdvde := indexIn_dvd W (toU32 (glyphTarget bbox ymin e).1)
          (toU32 (glyphTarget bbox ymin e).2)
        rw [hwidB]
        have hproj1 : (wfun f).1.1 = toU32 (glyphTarget bbox ymin f).1 := rfl
        have hproj2 : (wfun f).1.2 = toU32 (glyphTarget bbox ymin f).2 := rfl
        rw [hproj1, hproj2]
        omega
      have hread2 : readBytes img2.data (indexIn W (toU32 (glyphTarget bbox ymin e).1)
          (toU32 (glyphTarget bbox ymin e).2)) = [c.2.2, c.2.1, c.1, f32ToU8 (255 * e.2.2)] := by
        rw [readBytes_congr _ _ _ hframe, hreadB]
      unfold SimpleImage.get SimpleImage.index_of
      have hwid2 : img2.width = W := by rw [hdimsB.1, hwidB]
      have hlen2 : img2.data.length = 4 * W * H := by rw [hdimsB.2.2, hlenB]
      rw [hwid2, hlen2, if_pos (by omega), hread2]

/-- Witness for C8 at a concrete glyph and coverage value. -/
theorem C8_glyph_pixel_witness :
    ({ data := [30, 20, 10, 127], width := 1, height := 1 } : SimpleImage).get
        (toU32 (glyphTarget ⟨0, 0, 1, 1⟩ (min 0 (0 : ℤ)) (0, 0, 1 / 2)).1)
        (toU32 (glyphTarget ⟨0, 0, 1, 1⟩ (min 0 (0 : ℤ)) (0, 0, 1 / 2)).2) =
      some [30, 20, 10, f32ToU8 (255 * (1 / 2))] :=
  C8_glyph_pixel ⟨0, 0, 1, 1⟩ [(0, 0, 1 / 2)] [] [] (10, 20, 30)
    { data := [30, 20, 10, 127], width := 1, height := 1 } (0, 0, 1 / 2)
    (by with_unfolding_all decide) rfl (by with_unfolding_all decide) (by decide) (by decide)

end Apricity
